import Mathlib

/-!
Verification development for the SIP WCS fitter
(`src/src/sip/CreateWcsWithSip.cc`).

The C++ source is shallowly embedded: machine `int` values become `ℤ`
(guarded subtractions make the embedding exact on the domains considered),
`double` arithmetic becomes exact `ℚ` arithmetic (the single irrational
quantity, `1/sqrt(n)` in the bounding-box heuristic, is modelled over `ℝ`),
Eigen vectors and matrices become lists / explicit index functions, and
thrown exceptions become `Except` errors.
-/

namespace CreateWcsWithSip

/-- Triangular numbers, `Tri n = 1 + 2 + ... + n`.  This is the number of
terms of a 2-variable polynomial basis of total degree `< n` as used by the
source (`nTerms = 0.5*order*(order+1)`, exact for the orders involved). -/
def Tri : ℕ → ℕ
  | 0 => 0
  | n + 1 => Tri n + (n + 1)

theorem Tri_succ (n : ℕ) : Tri (n + 1) = Tri n + (n + 1) := rfl

theorem two_mul_Tri (n : ℕ) : 2 * Tri n = n * (n + 1) := by
  induction n with
  | zero => rfl
  | succ n ih =>
    calc 2 * Tri (n + 1) = 2 * Tri n + 2 * (n + 1) := by rw [Tri_succ]; ring
    _ = n * (n + 1) + 2 * (n + 1) := by rw [ih]
    _ = (n + 1) * (n + 1 + 1) := by ring

/-- `Tri` agrees with the closed-form `n*(n+1)/2` used in the source. -/
theorem Tri_eq (n : ℕ) : Tri n = n * (n + 1) / 2 := by
  have h := two_mul_Tri n
  omega

theorem Tri_le_Tri {a b : ℕ} (h : a ≤ b) : Tri a ≤ Tri b := by
  induction b with
  | zero => simp [Nat.le_zero.mp h]
  | succ b ih =>
    by_cases ha : a ≤ b
    · exact le_trans (ih ha) (by rw [Tri_succ]; omega)
    · have h2 : a = b + 1 := by omega
      subst h2
      exact le_refl _

/-- The loop of `indexToPQ` (lines 60-65 of the source):
`for (int decrement = order; q >= decrement && decrement > 0; --decrement)
 { q -= decrement; p++; }`.
The fuel argument is the current value of `decrement`; the loop exits when
`decrement` reaches `0` or when `q < decrement`. -/
def indexToPQiter : ℤ → ℤ → ℕ → ℤ × ℤ
  | p, q, 0 => (p, q)
  | p, q, d + 1 => if (d : ℤ) + 1 ≤ q then indexToPQiter (p + 1) (q - (d + 1)) d else (p, q)

/-- `indexToPQ(index, order)` from the source: starting from `p = 0, q = index`,
run the decrement loop with `decrement` starting at `order` (a non-positive
`order` never enters the loop, matching the `decrement > 0` guard). -/
def indexToPQ (index order : ℤ) : ℤ × ℤ :=
  indexToPQiter 0 index order.toNat

theorem indexToPQiter_nonneg (d : ℕ) (p q : ℤ) (hp : 0 ≤ p) (hq : 0 ≤ q) :
    0 ≤ (indexToPQiter p q d).1 ∧ 0 ≤ (indexToPQiter p q d).2 := by
  induction d generalizing p q with
  | zero => exact ⟨hp, hq⟩
  | succ d ih =>
    simp only [indexToPQiter]
    split
    · exact ih (p + 1) (q - (d + 1)) (by omega) (by omega)
    · exact ⟨hp, hq⟩

/-- The loop invariant of `indexToPQ`: started at `(p, q)` with fuel `d` and
`0 ≤ q < Tri d`, the loop performs some number `j < d` of iterations and
returns `(p + j, q - (Tri d - Tri (d - j)))`, the second component lying in
`[0, d - j)`. -/
theorem indexToPQiter_spec (d : ℕ) (p q : ℤ) (hq0 : 0 ≤ q) (hqd : q < Tri d) :
    ∃ j : ℕ, j + 1 ≤ d ∧
      indexToPQiter p q d = (p + j, q - ((Tri d : ℤ) - Tri (d - j))) ∧
      0 ≤ q - ((Tri d : ℤ) - Tri (d - j)) ∧
      q - ((Tri d : ℤ) - Tri (d - j)) < (d : ℤ) - j := by
  induction d generalizing p q with
  | zero =>
    exfalso
    simp only [Tri] at hqd
    omega
  | succ d ih =>
    have htri := Tri_succ d
    by_cases hstep : (d : ℤ) + 1 ≤ q
    · have hq0' : 0 ≤ q - (d + 1) := by omega
      have hqd'' : q - ((d : ℤ) + 1) < Tri d := by omega
      obtain ⟨j, hj, heq, hlo, hhi⟩ := ih (p + 1) (q - (d + 1)) hq0' hqd''
      have hdd : d + 1 - (j + 1) = d - j := by omega
      refine ⟨j + 1, by omega, ?_, ?_, ?_⟩
      · simp only [indexToPQiter, if_pos hstep, heq, hdd, Prod.mk.injEq]
        exact ⟨by push_cast; ring, by omega⟩
      · rw [hdd]; omega
      · rw [hdd]; push_cast; omega
    · refine ⟨0, by omega, ?_, by simp; omega, by simp; omega⟩
      simp only [indexToPQiter, if_neg hstep, Nat.sub_zero, sub_self, sub_zero,
        Nat.cast_zero, add_zero]

/-- Running the loop on `q` already smaller than the fuel exits at once. -/
theorem indexToPQiter_exit (d : ℕ) (p q : ℤ) (hq0 : 0 ≤ q) (hqd : q < d) :
    indexToPQiter p q d = (p, q) := by
  cases d with
  | zero => rfl
  | succ d => simp only [indexToPQiter]; rw [if_neg (by push_cast at hqd ⊢; omega)]

/-- Right-inverse computation: feeding the index
`q₀ + (Tri d - Tri (d - p₀))` into the loop yields exactly `(p + p₀, q₀)`,
whenever `q₀ < d - p₀`.  This is the surjectivity workhorse. -/
theorem indexToPQiter_of_pq (p₀ : ℕ) (d : ℕ) (p q₀ : ℤ) (hq0 : 0 ≤ q₀)
    (hlt : q₀ + p₀ < d) :
    indexToPQiter p (q₀ + ((Tri d : ℤ) - Tri (d - p₀))) d = (p + p₀, q₀) := by
  induction p₀ generalizing p d with
  | zero =>
    simp only [Nat.sub_zero, sub_self, add_zero, Nat.cast_zero]
    exact indexToPQiter_exit d p q₀ hq0 (by omega)
  | succ p₀ ih =>
    obtain ⟨e, rfl⟩ : ∃ e, d = e + 1 := ⟨d - 1, by omega⟩
    have htri := Tri_succ e
    have hsub : e + 1 - (p₀ + 1) = e - p₀ := by omega
    have htri2 : Tri (e - p₀) ≤ Tri e := Tri_le_Tri (by omega)
    have hbig : (e : ℤ) + 1 ≤ q₀ + ((Tri (e + 1) : ℤ) - Tri (e + 1 - (p₀ + 1))) := by
      rw [hsub]
      omega
    simp only [indexToPQiter]
    rw [if_pos hbig]
    have harg : q₀ + ((Tri (e + 1) : ℤ) - Tri (e + 1 - (p₀ + 1))) - ((e : ℤ) + 1)
        = q₀ + ((Tri e : ℤ) - Tri (e - p₀)) := by
      rw [hsub]
      omega
    rw [harg, ih e (p + 1) (by push_cast at hlt ⊢; omega)]
    simp only [Prod.mk.injEq]
    refine ⟨by push_cast; ring, ?_⟩
    trivial

theorem le_Tri (k : ℕ) : k ≤ Tri k := by
  induction k with
  | zero => exact le_refl _
  | succ k ih => rw [Tri_succ]; omega

/-- For an in-range index, the resulting exponents are non-negative and of
total degree `< order`. -/
theorem indexToPQ_valid (index order : ℤ) (h0 : 0 ≤ index)
    (hT : index < Tri order.toNat) :
    0 ≤ (indexToPQ index order).1 ∧ 0 ≤ (indexToPQ index order).2 ∧
      (indexToPQ index order).1 + (indexToPQ index order).2 < order := by
  obtain ⟨j, hj, heq, hlo, hhi⟩ := indexToPQiter_spec order.toNat 0 index h0 hT
  have hord : 1 ≤ order.toNat := by
    by_contra hc
    have : order.toNat = 0 := by omega
    rw [this] at hT
    simp [Tri] at hT
    omega
  have hcast : (order.toNat : ℤ) = order := Int.toNat_of_nonneg (by omega)
  rw [indexToPQ, heq]
  refine ⟨by omega, hlo, ?_⟩
  simp only [zero_add]
  omega

/-- Left-inverse form of the loop invariant: the input index is recoverable
from the output pair, which yields injectivity. -/
theorem indexToPQ_index_eq (index order : ℤ) (h0 : 0 ≤ index)
    (hT : index < Tri order.toNat) :
    index = (indexToPQ index order).2 +
      ((Tri order.toNat : ℤ) - Tri (order.toNat - (indexToPQ index order).1.toNat)) := by
  obtain ⟨j, hj, heq, hlo, hhi⟩ := indexToPQiter_spec order.toNat 0 index h0 hT
  rw [indexToPQ, heq]
  simp only [zero_add, Int.toNat_natCast]
  omega

theorem indexToPQ_injective (order : ℤ) {i i' : ℤ} (h0 : 0 ≤ i)
    (hT : i < Tri order.toNat) (h0' : 0 ≤ i') (hT' : i' < Tri order.toNat)
    (heq : indexToPQ i order = indexToPQ i' order) : i = i' := by
  have e1 := indexToPQ_index_eq i order h0 hT
  have e2 := indexToPQ_index_eq i' order h0' hT'
  rw [heq] at e1
  omega

/-- Surjectivity: every admissible exponent pair is hit by an in-range index. -/
theorem indexToPQ_surjective (order p q : ℤ) (hp : 0 ≤ p) (hq : 0 ≤ q)
    (hpq : p + q < order) :
    ∃ i : ℤ, 0 ≤ i ∧ i < Tri order.toNat ∧ indexToPQ i order = (p, q) := by
  set d := order.toNat with hd
  have hcast : (d : ℤ) = order := Int.toNat_of_nonneg (by omega)
  have hpd : p.toNat < d := by omega
  refine ⟨q + ((Tri d : ℤ) - Tri (d - p.toNat)), ?_, ?_, ?_⟩
  · have := Tri_le_Tri (Nat.sub_le d p.toNat)
    omega
  · have h1 : q < (d : ℤ) - p.toNat := by omega
    have h2 : (d - p.toNat : ℕ) ≤ Tri (d - p.toNat) := le_Tri _
    omega
  · rw [indexToPQ]
    have := indexToPQiter_of_pq p.toNat d 0 q hq (by omega)
    rw [this]
    simp only [Prod.mk.injEq, zero_add]
    constructor
    · omega
    · trivial

/-- The three fixed points relied on by the forward fitter
(asserted at lines 234-236 of the source). -/
theorem indexToPQ_fixed (order : ℤ) (h2 : 2 ≤ order) :
    indexToPQ 0 order = (0, 0) ∧ indexToPQ 1 order = (0, 1) ∧
      indexToPQ order order = (1, 0) := by
  have hd : 2 ≤ order.toNat := by omega
  have hcast : (order.toNat : ℤ) = order := Int.toNat_of_nonneg (by omega)
  refine ⟨?_, ?_, ?_⟩
  · exact indexToPQiter_exit order.toNat 0 0 (le_refl _) (by omega)
  · exact indexToPQiter_exit order.toNat 0 1 (by omega) (by omega)
  · rw [indexToPQ]
    have h1d : (0 : ℤ) + (1 : ℕ) < (order.toNat : ℤ) := by push_cast; omega
    have := indexToPQiter_of_pq 1 order.toNat 0 0 (le_refl _) h1d
    have harg : (0 : ℤ) + ((Tri order.toNat : ℤ) - Tri (order.toNat - 1)) = order := by
      obtain ⟨e, he⟩ : ∃ e, order.toNat = e + 1 := ⟨order.toNat - 1, by omega⟩
      rw [he]
      have := Tri_succ e
      simp only [Nat.add_sub_cancel]
      omega
    rw [harg] at this
    rw [this]
    simp

/-- Number of polynomial terms as computed by the source
(`int nTerms = 0.5*order*(order+1)`; the floating computation is exact for
all orders in range, so it equals integer `order*(order+1)/2`). -/
def nTermsCode (order : ℕ) : ℕ := order * (order + 1) / 2

theorem nTermsCode_eq_Tri (order : ℕ) : nTermsCode order = Tri order := by
  rw [nTermsCode, Tri_eq]

/-- **C1.** For every order in `[2,9]` and every index in
`{0, …, order·(order+1)/2 − 1}`, `indexToPQ(index, order)` returns a pair
`(p,q)` with `p ≥ 0`, `q ≥ 0`, `p+q < order`; the mapping is a bijection
from that index range onto the set of such pairs (stated as injectivity
plus surjectivity); and the fixed points hold:
`indexToPQ(0, order) = (0,0)`, `indexToPQ(1, order) = (0,1)`,
`indexToPQ(order, order) = (1,0)`. -/
theorem claim_C1_indexToPQ_bijection (order : ℤ) (h2 : 2 ≤ order) (h9 : order ≤ 9) :
    (∀ i : ℤ, 0 ≤ i → i < order * (order + 1) / 2 →
      0 ≤ (indexToPQ i order).1 ∧ 0 ≤ (indexToPQ i order).2 ∧
        (indexToPQ i order).1 + (indexToPQ i order).2 < order) ∧
    (∀ i i' : ℤ, 0 ≤ i → i < order * (order + 1) / 2 →
      0 ≤ i' → i' < order * (order + 1) / 2 →
      indexToPQ i order = indexToPQ i' order → i = i') ∧
    (∀ p q : ℤ, 0 ≤ p → 0 ≤ q → p + q < order →
      ∃ i : ℤ, 0 ≤ i ∧ i < order * (order + 1) / 2 ∧ indexToPQ i order = (p, q)) ∧
    indexToPQ 0 order = (0, 0) ∧ indexToPQ 1 order = (0, 1) ∧
      indexToPQ order order = (1, 0) := by
  have hTri : ((Tri order.toNat : ℕ) : ℤ) = order * (order + 1) / 2 := by
    rw [Tri_eq]
    have hc : ((order.toNat : ℤ)) = order := Int.toNat_of_nonneg (by omega)
    rw [Int.ofNat_tdiv]
    push_cast
    rw [hc, Int.tdiv_eq_ediv (mul_nonneg (by omega) (by omega)) (by omega)]
  refine ⟨?_, ?_, ?_, indexToPQ_fixed order h2⟩
  · intro i h0 hT
    exact indexToPQ_valid i order h0 (by omega)
  · intro i i' h0 hT h0' hT' heq
    exact indexToPQ_injective order h0 (by omega) h0' (by omega) heq
  · intro p q hp hq hpq
    obtain ⟨i, h0, hT, heq⟩ := indexToPQ_surjective order p q hp hq hpq
    exact ⟨i, h0, by omega, heq⟩

/-- Witness for C1 at order 3: the hypotheses `2 ≤ 3 ≤ 9` hold and e.g. the
fixed-point part evaluates on the concrete input. -/
theorem claim_C1_indexToPQ_bijection_witness :
    indexToPQ 3 3 = (1, 0) ∧ indexToPQ 0 3 = (0, 0) ∧ indexToPQ 1 3 = (0, 1) := by
  obtain ⟨-, -, -, hfix0, hfix1, hfixo⟩ :=
    claim_C1_indexToPQ_bijection 3 (by decide) (by decide)
  exact ⟨hfixo, hfix0, hfix1⟩

/-! ### Design matrix builder (`calculateCMatrix`, lines 70-88) -/

/-- Failure modes of the embedded `calculateCMatrix`: an out-of-bounds Eigen
vector access (undefined behaviour / debug abort in C++), or a failing
`assert(p + q < order)`.  The source contains no invalid-argument check of
any kind. -/
inductive CErr where
  | oobRead
  | assertFail
  deriving DecidableEq

/-- One entry of the design matrix: `C(i, j) = pow(axis1[i], p)*pow(axis2[i], q)`
with `(p, q) = indexToPQ(j, order)`, guarded by the source's
`assert(p + q < order)`. -/
def cEntry (axis1 axis2 : List ℚ) (order : ℕ) (i j : ℕ) : Except CErr ℚ :=
  let pq := indexToPQ (j : ℤ) (order : ℤ)
  if pq.1 + pq.2 < (order : ℤ) then
    match axis1.get? i, axis2.get? i with
    | some a, some b => .ok (a ^ pq.1.toNat * b ^ pq.2.toNat)
    | _, _ => .error .oobRead
  else .error .assertFail

/-- `calculateCMatrix(axis1, axis2, order)`: an `n × nTerms` matrix with
`n = axis1.size()` and `nTerms = 0.5*order*(order+1)`.  The row count comes
from `axis1` alone; the lengths are never compared. -/
def calculateCMatrix (axis1 axis2 : List ℚ) (order : ℕ) :
    Except CErr (List (List ℚ)) :=
  (List.range axis1.length).mapM fun i =>
    (List.range (nTermsCode order)).mapM fun j => cEntry axis1 axis2 order i j

instance instDecidableEqExcept {ε α : Type} [DecidableEq ε] [DecidableEq α] :
    DecidableEq (Except ε α)
  | .error e, .error f =>
    if h : e = f then .isTrue (by rw [h])
    else .isFalse (by intro hc; cases hc; exact h rfl)
  | .error _, .ok _ => .isFalse (by intro hc; cases hc)
  | .ok _, .error _ => .isFalse (by intro hc; cases hc)
  | .ok a, .ok b =>
    if h : a = b then .isTrue (by rw [h])
    else .isFalse (by intro hc; cases hc; exact h rfl)

theorem mapM_ok_of_all {α β : Type} (l : List α) (g : α → Except CErr β)
    (f : α → β) (h : ∀ a ∈ l, g a = .ok (f a)) : l.mapM g = .ok (l.map f) := by
  induction l with
  | nil => rfl
  | cons a l ih =>
    rw [List.mapM_cons, h a (List.mem_cons_self a l),
      ih fun b hb => h b (List.mem_cons_of_mem a hb)]
    rfl

/-- The value of one design-matrix entry, `x_i^p * y_i^q` with
`(p, q) = indexToPQ(j, order)`. -/
def cVal (axis1 axis2 : List ℚ) (order : ℕ) (i j : ℕ) : ℚ :=
  (axis1.getD i 0) ^ (indexToPQ (j : ℤ) (order : ℤ)).1.toNat *
    (axis2.getD i 0) ^ (indexToPQ (j : ℤ) (order : ℤ)).2.toNat

/-- With `axis1` no longer than `axis2`, every entry evaluates cleanly and the
whole design matrix is produced. -/
theorem calculateCMatrix_ok (axis1 axis2 : List ℚ) (order : ℕ)
    (hlen : axis1.length ≤ axis2.length) :
    calculateCMatrix axis1 axis2 order =
      .ok ((List.range axis1.length).map fun (i : ℕ) =>
        (List.range (nTermsCode order)).map fun (j : ℕ) =>
          cVal axis1 axis2 order i j) := by
  rw [calculateCMatrix]
  apply mapM_ok_of_all
  intro i hi
  apply mapM_ok_of_all
  intro j hj
  have hi1 : i < axis1.length := List.mem_range.mp hi
  have hi2 : i < axis2.length := by omega
  have hj1 : j < nTermsCode order := List.mem_range.mp hj
  have hjT : (j : ℤ) < Tri ((order : ℤ)).toNat := by
    rw [Int.toNat_natCast]
    rw [nTermsCode_eq_Tri] at hj1
    exact_mod_cast hj1
  obtain ⟨hp, hq, hpq⟩ := indexToPQ_valid (j : ℤ) (order : ℤ) (by omega) hjT
  rw [cEntry]
  simp only [if_pos hpq, List.get?_eq_getElem?, List.getElem?_eq_getElem hi1,
    List.getElem?_eq_getElem hi2]
  rw [cVal, List.getD_eq_getElem _ _ hi1, List.getD_eq_getElem _ _ hi2]

/-- Concrete evaluation at the sample of the spec: order 2, matched sample
`(x, y) = (2, 3)` gives the single row `[1, 3, 2]`. -/
theorem calculateCMatrix_at_2_3 : calculateCMatrix [2] [3] 2 = .ok [[1, 3, 2]] := by
  have e0 : indexToPQ 0 2 = (0, 0) := by decide
  have e1 : indexToPQ 1 2 = (0, 1) := by decide
  have e2 : indexToPQ 2 2 = (1, 0) := by decide
  rw [calculateCMatrix_ok [2] [3] 2 (by decide)]
  simp [nTermsCode, cVal, List.range_succ, e0, e1, e2]

/-- The same evaluation with a longer second vector: the extra entry of
`axis2` is simply never read. -/
theorem calculateCMatrix_at_unequal :
    calculateCMatrix [2] [3, 4] 2 = .ok [[1, 3, 2]] := by
  have e0 : indexToPQ 0 2 = (0, 0) := by decide
  have e1 : indexToPQ 1 2 = (0, 1) := by decide
  have e2 : indexToPQ 2 2 = (1, 0) := by decide
  rw [calculateCMatrix_ok [2] [3, 4] 2 (by decide)]
  simp [nTermsCode, cVal, List.range_succ, e0, e1, e2]

/-- **C4.** For equal-length sample vectors and order in `[2,9]`,
`calculateCMatrix` returns an `n × T` matrix (`T = order*(order+1)/2`) whose
`(i,j)` entry is `x_i^p * y_i^q` with `(p,q) = indexToPQ(j, order)`; and for
order 2 and the sample `(2,3)` the row is `[1, 3, 2]`. -/
theorem claim_C4_calculateCMatrix (x y : List ℚ) (order : ℕ)
    (hlen : x.length = y.length) (h2 : 2 ≤ order) (h9 : order ≤ 9) :
    (∃ M, calculateCMatrix x y order = .ok M ∧ M.length = x.length ∧
      (∀ i, i < x.length → (M.getD i []).length = order * (order + 1) / 2) ∧
      (∀ i j, i < x.length → j < order * (order + 1) / 2 →
        (M.getD i []).getD j 0 = cVal x y order i j)) ∧
    calculateCMatrix [2] [3] 2 = .ok [[1, 3, 2]] := by
  have hrow : ∀ i, i < x.length →
      (((List.range x.length).map fun (i : ℕ) =>
        (List.range (nTermsCode order)).map fun (j : ℕ) =>
          cVal x y order i j).getD i []) =
      (List.range (nTermsCode order)).map fun (j : ℕ) => cVal x y order i j := by
    intro i hi
    rw [List.getD_eq_getElem _ _ (by simpa using hi)]
    simp
  constructor
  · refine ⟨_, calculateCMatrix_ok x y order (le_of_eq hlen), ?_, ?_, ?_⟩
    · simp
    · intro i hi
      rw [hrow i hi]
      simp [nTermsCode]
    · intro i j hi hj
      have hj' : j < nTermsCode order := by rw [nTermsCode]; omega
      rw [hrow i hi, List.getD_eq_getElem _ _ (by simpa using hj')]
      simp
  · exact calculateCMatrix_at_2_3

/-- Witness for C4 at the concrete sample of the claim. -/
theorem claim_C4_calculateCMatrix_witness :
    calculateCMatrix [2] [3] 2 = .ok [[1, 3, 2]] :=
  (claim_C4_calculateCMatrix [2] [3] 2 (by decide) (by decide) (by decide)).2

/-- **C5, counterexample.**  The claim says `calculateCMatrix` fails with an
invalid-argument error whenever the two vectors differ in length.  On the
concrete unequal-length input `x = [2]`, `y = [3, 4]` it instead succeeds and
returns a matrix. -/
theorem claim_C5_counterexample :
    ([2] : List ℚ).length ≠ ([3, 4] : List ℚ).length ∧
      calculateCMatrix [2] [3, 4] 2 = .ok [[1, 3, 2]] := by
  constructor
  · decide
  · exact calculateCMatrix_at_unequal

/-- **C5, amended.**  `calculateCMatrix` performs no length comparison and has
no invalid-argument failure: whenever `axis1` is no longer than `axis2`
(equal or not) it succeeds and returns a matrix.  (Purity is inherent: the
embedded function is a pure Lean function of its arguments, matching the
side-effect-free source.) -/
theorem claim_C5_amended (x y : List ℚ) (order : ℕ)
    (hlen : x.length ≤ y.length) :
    ∃ M, calculateCMatrix x y order = .ok M :=
  ⟨_, calculateCMatrix_ok x y order hlen⟩

/-- Witness for C5 (amended) at an unequal-length input. -/
theorem claim_C5_amended_witness :
    ∃ M, calculateCMatrix [2] [3, 4] 2 = .ok M :=
  claim_C5_amended [2] [3, 4] 2 (by decide)

/-! ### Constructor validation (lines 119-147) -/

/-- The exceptions thrown by the constructor prologue: `OutOfRangeError` for
the order checks (lines 127-139) and `LengthError` for the match-count check
(lines 141-143). -/
inductive CtorError where
  | outOfRangeOrderTooLow
  | outOfRangeForwardOrder
  | outOfRangeReverseOrder
  | lengthInsufficientMatches
  deriving DecidableEq

/-- The constructor's validation sequence, in source order:
`order < 2`, then `_sipOrder > 9` with `_sipOrder = order + 1`, then
`_reverseSipOrder > 9` with `_reverseSipOrder = order + 2`, then
`_matches.size() < _sipOrder`.  All checks precede any fitting work
(`_calculateForwardMatrices` is called only at line 171). -/
def constructorChecks (order : ℤ) (nMatches : ℕ) : Except CtorError Unit :=
  if order < 2 then .error .outOfRangeOrderTooLow
  else if 9 < order + 1 then .error .outOfRangeForwardOrder
  else if 9 < order + 2 then .error .outOfRangeReverseOrder
  else if (nMatches : ℤ) < order + 1 then .error .lengthInsufficientMatches
  else .ok ()

/-- **C2, counterexample.**  The claim says a requested order whose derived
forward order equals exactly 9 does not raise a range error.  Requested
order 8 has forward order `8 + 1 = 9`, yet the constructor raises the
reverse-order range error (its reverse order is 10). -/
theorem claim_C2_counterexample :
    (8 : ℤ) + 1 = 9 ∧
      constructorChecks 8 100 = .error .outOfRangeReverseOrder := by
  constructor
  · decide
  · decide

/-- **C2, amended.**  The constructor raises an out-of-range error when the
requested order is below 2, and a range-exceeded error when the derived
forward order (`order+1`) or reverse order (`order+2`) exceeds 9.  A
requested order whose derived *reverse* order equals exactly 9 (order 7)
succeeds; the order whose forward order equals exactly 9 (order 8) raises,
because its reverse order is 10. -/
theorem claim_C2_amended (order : ℤ) (n : ℕ) :
    (order < 2 → constructorChecks order n = .error .outOfRangeOrderTooLow) ∧
    (2 ≤ order → 9 < order + 1 →
      constructorChecks order n = .error .outOfRangeForwardOrder) ∧
    (2 ≤ order → order + 1 ≤ 9 → 9 < order + 2 →
      constructorChecks order n = .error .outOfRangeReverseOrder) ∧
    (order + 2 = 9 → order + 1 ≤ (n : ℤ) →
      constructorChecks order n = .ok ()) := by
  refine ⟨?_, ?_, ?_, ?_⟩ <;> intros <;> simp only [constructorChecks] <;>
    split_ifs <;> first | rfl | omega

/-- Witness for C2 (amended): requested order 7 (reverse order exactly 9)
with enough matches succeeds. -/
theorem claim_C2_amended_witness : constructorChecks 7 8 = .ok () :=
  (claim_C2_amended 7 8).2.2.2 (by decide) (by decide)

/-- **C3.**  Once the order checks pass (requested order in `[2,7]`), the
constructor raises the insufficient-matches error iff the number of matches
is strictly below the forward order `order + 1`; exactly `order + 1` matches
succeed.  The check sits before any numerical fitting work by construction
(source lines 141-143 precede the fit call at line 171). -/
theorem claim_C3_insufficientMatches (order : ℤ) (n : ℕ)
    (h2 : 2 ≤ order) (h7 : order + 2 ≤ 9) :
    (constructorChecks order n = .error .lengthInsufficientMatches ↔
      (n : ℤ) < order + 1) ∧
    ((n : ℤ) = order + 1 → constructorChecks order n = .ok ()) := by
  constructor
  · constructor
    · intro h
      by_contra hc
      simp only [constructorChecks] at h
      split_ifs at h <;> omega
    · intro h
      simp only [constructorChecks]
      split_ifs <;> first | rfl | omega
  · intro h
    simp only [constructorChecks]
    split_ifs <;> first | rfl | omega

/-- Witness for C3: order 2 with exactly 3 matches succeeds. -/
theorem claim_C3_insufficientMatches_witness : constructorChecks 2 3 = .ok () :=
  (claim_C3_insufficientMatches 2 3 (by decide) (by decide)).2 (by decide)

/-! ### Grid resolution guard (lines 145-147) and reverse grid spacing
(lines 288-291) -/

/-- The constructor's grid-resolution guard: a non-positive `ngrid` is
replaced by `5*_sipOrder`; any positive value is kept as-is. -/
def effectiveNgrid (order ngrid : ℤ) : ℤ :=
  if ngrid ≤ 0 then 5 * (order + 1) else ngrid

/-- Grid spacing of the reverse fit:
`dx = _bbox.getWidth()/(double)(_ngrid - 1)`. -/
def reverseDx (width : ℚ) (order ngrid : ℤ) : ℚ :=
  width / ((effectiveNgrid order ngrid - 1 : ℤ) : ℚ)

/-- **C10.**  The guard replaces only non-positive grid resolutions (with
`5*(order+1)`), keeps every positive one, and the reverse fit's divisor
`ngrid - 1` is non-zero for every accepted grid resolution except
`ngrid = 1`, which is accepted yet yields a zero divisor. -/
theorem claim_C10_ngridGuard (order ngrid : ℤ) (h2 : 2 ≤ order) :
    (ngrid ≤ 0 → effectiveNgrid order ngrid = 5 * (order + 1)) ∧
    (0 < ngrid → effectiveNgrid order ngrid = ngrid) ∧
    (effectiveNgrid order ngrid - 1 = 0 ↔ ngrid = 1) := by
  refine ⟨?_, ?_, ?_⟩
  · intro h
    simp [effectiveNgrid, h]
  · intro h
    simp [effectiveNgrid]
    omega
  · simp only [effectiveNgrid]
    split_ifs <;> omega

/-- Witness for C10: order 2, `ngrid = 1` is accepted unchanged and makes the
divisor zero. -/
theorem claim_C10_ngridGuard_witness :
    effectiveNgrid 2 1 = 1 ∧ (effectiveNgrid 2 1 - 1 = 0 ↔ (1 : ℤ) = 1) :=
  ⟨(claim_C10_ngridGuard 2 1 (by decide)).2.1 (by decide),
    (claim_C10_ngridGuard 2 1 (by decide)).2.2⟩

/-! ### 2×2 linear algebra (Eigen `Matrix2d`, closed-form inverse) -/

/-- A 2×2 real matrix, row-major entries. -/
structure Mat2 where
  e00 : ℚ
  e01 : ℚ
  e10 : ℚ
  e11 : ℚ
  deriving DecidableEq

def Mat2.det (M : Mat2) : ℚ := M.e00 * M.e11 - M.e01 * M.e10

/-- The closed-form (adjugate over determinant) inverse Eigen uses for 2×2
matrices (`CD.inverse()`, line 245). -/
def Mat2.inv (M : Mat2) : Mat2 :=
  ⟨M.e11 / M.det, -M.e01 / M.det, -M.e10 / M.det, M.e00 / M.det⟩

def Mat2.mul (M N : Mat2) : Mat2 :=
  ⟨M.e00 * N.e00 + M.e01 * N.e10, M.e00 * N.e01 + M.e01 * N.e11,
   M.e10 * N.e00 + M.e11 * N.e10, M.e10 * N.e01 + M.e11 * N.e11⟩

def Mat2.idm : Mat2 := ⟨1, 0, 0, 1⟩

/-- Matrix-vector product `M · v`. -/
def Mat2.app (M : Mat2) (v : ℚ × ℚ) : ℚ × ℚ :=
  (M.e00 * v.1 + M.e01 * v.2, M.e10 * v.1 + M.e11 * v.2)

theorem Mat2.mul_inv (M : Mat2) (h : M.det ≠ 0) : M.mul M.inv = Mat2.idm := by
  rcases M with ⟨a, b, c, d⟩
  simp only [Mat2.det] at h
  simp only [Mat2.mul, Mat2.inv, Mat2.det, Mat2.idm, Mat2.mk.injEq]
  refine ⟨?_, ?_, ?_, ?_⟩ <;> field_simp <;> ring

theorem Mat2.inv_mul (M : Mat2) (h : M.det ≠ 0) : M.inv.mul M = Mat2.idm := by
  rcases M with ⟨a, b, c, d⟩
  simp only [Mat2.det] at h
  simp only [Mat2.mul, Mat2.inv, Mat2.det, Mat2.idm, Mat2.mk.injEq]
  refine ⟨?_, ?_, ?_, ?_⟩ <;> field_simp <;> ring

/-! ### Forward fit, linear part (lines 238-253) -/

/-- The state of a linear WCS as the fitter sees it: reference point,
pixel origin and CD matrix. -/
structure WcsState where
  crval : ℚ × ℚ
  crpix : ℚ × ℚ
  cd : Mat2
  deriving DecidableEq

/-- The refined CD matrix (lines 239-243):
`CD(0,0) = mu[ord]/norm, CD(0,1) = mu[1]/norm,
 CD(1,0) = nu[ord]/norm, CD(1,1) = nu[1]/norm`. -/
def forwardCD (mu nu : List ℚ) (norm : ℚ) (ord : ℕ) : Mat2 :=
  ⟨mu.getD ord 0 / norm, mu.getD 1 0 / norm,
   nu.getD ord 0 / norm, nu.getD 1 0 / norm⟩

/-- Lines 238-253 of `_calculateForwardMatrices`: rebuild the CD matrix from
the solved coefficients, shift the pixel origin by `CDinv · (mu[0], nu[0])`,
and build a brand-new linear WCS value
(`_linearWcs = afwImg::Wcs::Ptr(new afwImg::Wcs(crval, crpix, CD))`). -/
def refineLinearWcs (w : WcsState) (mu nu : List ℚ) (norm : ℚ) (ord : ℕ) :
    WcsState :=
  let CD := forwardCD mu nu norm ord
  let CDinv := CD.inv
  { crval := w.crval
    crpix := (w.crpix.1 - (mu.getD 0 0 * CDinv.e00 + nu.getD 0 0 * CDinv.e01),
              w.crpix.2 - (mu.getD 0 0 * CDinv.e10 + nu.getD 0 0 * CDinv.e11))
    cd := CD }

/-- **C6.** The refined CD map is built from `mu`, `nu` at indices 1 and
`order`, each divided by the normalization scale; the new pixel origin is the
old one minus `invMap · (mu[0], nu[0])` where `invMap` really is the
(two-sided, closed-form) inverse of the refined map; the reference point is
carried over; and the result is a freshly constructed value (the input `w`
is untouched — the embedding is by value, matching the source's
`clone()`-then-replace treatment of the caller's transform). -/
theorem claim_C6_linearRefinement (w : WcsState) (mu nu : List ℚ) (norm : ℚ)
    (ord : ℕ) (hdet : (forwardCD mu nu norm ord).det ≠ 0) :
    (refineLinearWcs w mu nu norm ord).cd =
      ⟨mu.getD ord 0 / norm, mu.getD 1 0 / norm,
       nu.getD ord 0 / norm, nu.getD 1 0 / norm⟩ ∧
    (refineLinearWcs w mu nu norm ord).crpix =
      (w.crpix.1 - ((forwardCD mu nu norm ord).inv.app (mu.getD 0 0, nu.getD 0 0)).1,
       w.crpix.2 - ((forwardCD mu nu norm ord).inv.app (mu.getD 0 0, nu.getD 0 0)).2) ∧
    Mat2.mul (forwardCD mu nu norm ord) (forwardCD mu nu norm ord).inv = Mat2.idm ∧
    Mat2.mul (forwardCD mu nu norm ord).inv (forwardCD mu nu norm ord) = Mat2.idm ∧
    (refineLinearWcs w mu nu norm ord).crval = w.crval := by
  refine ⟨rfl, ?_, Mat2.mul_inv _ hdet, Mat2.inv_mul _ hdet, rfl⟩
  simp only [refineLinearWcs, Mat2.app, Prod.ext_iff]
  constructor <;> ring_nf

/-- Witness for C6 at a concrete invertible fit result. -/
theorem claim_C6_linearRefinement_witness :
    (forwardCD [5, 0, 1] [7, 1, 0] 1 2).det ≠ 0 ∧
      (refineLinearWcs ⟨(0, 0), (10, 20), Mat2.idm⟩ [5, 0, 1] [7, 1, 0] 1 2).crval
        = ((0 : ℚ), (0 : ℚ)) := by
  have hd : (forwardCD [5, 0, 1] [7, 1, 0] 1 2).det ≠ 0 := by
    norm_num [forwardCD, Mat2.det, List.getD]
  exact ⟨hd,
    (claim_C6_linearRefinement ⟨(0, 0), (10, 20), Mat2.idm⟩ [5, 0, 1] [7, 1, 0] 1 2 hd).2.2.2.2⟩

/-! ### Coefficient-matrix writes (lines 265-278 and 342-348) -/

/-- A coefficient matrix as an index function, zero-initialized
(`Eigen::MatrixXd::Zero`, lines 121-124). -/
def zeroM : ℕ → ℕ → ℚ := fun _ _ => 0

/-- Point update `M(p, q) = v`. -/
def mupd (M : ℕ → ℕ → ℚ) (p q : ℕ) (v : ℚ) : ℕ → ℕ → ℚ :=
  fun pp qq => if pp = p ∧ qq = q then v else M pp qq

/-- One loop step, abstracted: `f i` is `none` when iteration `i` writes
nothing, and `some ((p,q), v)` when it stores `v` at `(p,q)`. -/
def applyWrite (f : ℕ → Option ((ℕ × ℕ) × ℚ)) (M : ℕ → ℕ → ℚ) (i : ℕ) :
    ℕ → ℕ → ℚ :=
  match f i with
  | none => M
  | some pv => mupd M pv.1.1 pv.1.2 pv.2

/-- A whole write loop over index list `l`. -/
def foldWrites (f : ℕ → Option ((ℕ × ℕ) × ℚ)) (l : List ℕ) (M : ℕ → ℕ → ℚ) :
    ℕ → ℕ → ℚ :=
  l.foldl (applyWrite f) M

theorem foldWrites_append (f : ℕ → Option ((ℕ × ℕ) × ℚ)) (l₁ l₂ : List ℕ)
    (M : ℕ → ℕ → ℚ) :
    foldWrites f (l₁ ++ l₂) M = foldWrites f l₂ (foldWrites f l₁ M) := by
  simp [foldWrites, List.foldl_append]

/-- If no iteration in `l` writes position `(p, q)`, the loop leaves it
unchanged. -/
theorem foldWrites_no_write (f : ℕ → Option ((ℕ × ℕ) × ℚ)) (l : List ℕ)
    (M : ℕ → ℕ → ℚ) (p q : ℕ)
    (h : ∀ i ∈ l, ∀ pv, f i = some pv → pv.1 ≠ (p, q)) :
    foldWrites f l M p q = M p q := by
  induction l generalizing M with
  | nil => rfl
  | cons i l ih =>
    have hstep : applyWrite f M i p q = M p q := by
      rcases hf : f i with - | pv
      · simp [applyWrite, hf]
      · have hne := h i (List.mem_cons_self i l) pv hf
        simp only [applyWrite, hf, mupd]
        rw [if_neg]
        intro hc
        exact hne (by cases pv; simp_all [Prod.ext_iff])
    calc foldWrites f (i :: l) M p q
        = foldWrites f l (applyWrite f M i) p q := rfl
      _ = applyWrite f M i p q :=
          ih (applyWrite f M i) fun j hj => h j (List.mem_cons_of_mem i hj)
      _ = M p q := hstep

/-- If exactly one iteration `i₀` of a duplicate-free loop writes `(p, q)`,
the final value there is the value written by `i₀`. -/
theorem foldWrites_unique_write (f : ℕ → Option ((ℕ × ℕ) × ℚ)) (l : List ℕ)
    (M : ℕ → ℕ → ℚ) (p q : ℕ) (i₀ : ℕ) (v : ℚ)
    (hmem : i₀ ∈ l) (hnodup : l.Nodup)
    (hw : f i₀ = some ((p, q), v))
    (hothers : ∀ i ∈ l, i ≠ i₀ → ∀ pv, f i = some pv → pv.1 ≠ (p, q)) :
    foldWrites f l M p q = v := by
  obtain ⟨s, t, rfl⟩ := List.append_of_mem hmem
  have hnot : i₀ ∉ t := by
    have h1 : (i₀ :: t).Nodup := hnodup.of_append_right
    exact (List.nodup_cons.mp h1).1
  rw [foldWrites_append]
  have hcons : foldWrites f (i₀ :: t) (foldWrites f s M) =
      foldWrites f t (applyWrite f (foldWrites f s M) i₀) := rfl
  rw [hcons, foldWrites_no_write]
  · simp [applyWrite, hw, mupd]
  · intro i hi pv hf
    exact hothers i (by simp [List.mem_append, hi]) (fun hc => hnot (hc ▸ hi)) pv hf

/-- The forward loop's write to `_sipA` (lines 265-278): only terms with
`1 < p + q < ord` are stored, as `(CDinv · (mu[i], nu[i]))[0] / norm^(p+q)`. -/
def fwdWriteA (CDinv : Mat2) (norm : ℚ) (mu nu : List ℚ) (ord : ℕ) (i : ℕ) :
    Option ((ℕ × ℕ) × ℚ) :=
  if 1 < (indexToPQ (i : ℤ) (ord : ℤ)).1 + (indexToPQ (i : ℤ) (ord : ℤ)).2 ∧
      (indexToPQ (i : ℤ) (ord : ℤ)).1 + (indexToPQ (i : ℤ) (ord : ℤ)).2 < (ord : ℤ) then
    some (((indexToPQ (i : ℤ) (ord : ℤ)).1.toNat, (indexToPQ (i : ℤ) (ord : ℤ)).2.toNat),
      (CDinv.app (mu.getD i 0, nu.getD i 0)).1 /
        norm ^ ((indexToPQ (i : ℤ) (ord : ℤ)).1 + (indexToPQ (i : ℤ) (ord : ℤ)).2).toNat)
  else none

/-- The forward loop's write to `_sipB`, second component of `CDinv · munu`. -/
def fwdWriteB (CDinv : Mat2) (norm : ℚ) (mu nu : List ℚ) (ord : ℕ) (i : ℕ) :
    Option ((ℕ × ℕ) × ℚ) :=
  if 1 < (indexToPQ (i : ℤ) (ord : ℤ)).1 + (indexToPQ (i : ℤ) (ord : ℤ)).2 ∧
      (indexToPQ (i : ℤ) (ord : ℤ)).1 + (indexToPQ (i : ℤ) (ord : ℤ)).2 < (ord : ℤ) then
    some (((indexToPQ (i : ℤ) (ord : ℤ)).1.toNat, (indexToPQ (i : ℤ) (ord : ℤ)).2.toNat),
      (CDinv.app (mu.getD i 0, nu.getD i 0)).2 /
        norm ^ ((indexToPQ (i : ℤ) (ord : ℤ)).1 + (indexToPQ (i : ℤ) (ord : ℤ)).2).toNat)
  else none

/-- `_sipA` after the forward fit: the loop runs `i = 1 .. mu.rows()-1` over
the zero-initialized matrix. -/
def sipA (CDinv : Mat2) (norm : ℚ) (mu nu : List ℚ) (ord : ℕ) : ℕ → ℕ → ℚ :=
  foldWrites (fwdWriteA CDinv norm mu nu ord) (List.range' 1 (mu.length - 1)) zeroM

/-- `_sipB` after the forward fit. -/
def sipB (CDinv : Mat2) (norm : ℚ) (mu nu : List ℚ) (ord : ℕ) : ℕ → ℕ → ℚ :=
  foldWrites (fwdWriteB CDinv norm mu nu ord) (List.range' 1 (mu.length - 1)) zeroM

/-- The reverse loop's write (lines 342-348): *every* index `j` is stored,
no degree restriction, as `tmp[j] / norm^(p+q)`. -/
def revWrite (norm : ℚ) (tmp : List ℚ) (ord : ℕ) (j : ℕ) :
    Option ((ℕ × ℕ) × ℚ) :=
  some (((indexToPQ (j : ℤ) (ord : ℤ)).1.toNat, (indexToPQ (j : ℤ) (ord : ℤ)).2.toNat),
    tmp.getD j 0 / norm ^ ((indexToPQ (j : ℤ) (ord : ℤ)).1 + (indexToPQ (j : ℤ) (ord : ℤ)).2).toNat)

/-- `_sipAp` after the reverse fit: loop over `j = 0 .. tmpA.rows()-1`. -/
def sipAp (norm : ℚ) (tmpA : List ℚ) (rord : ℕ) : ℕ → ℕ → ℚ :=
  foldWrites (revWrite norm tmpA rord) (List.range tmpA.length) zeroM

/-- `_sipBp` after the reverse fit. -/
def sipBp (norm : ℚ) (tmpB : List ℚ) (rord : ℕ) : ℕ → ℕ → ℚ :=
  foldWrites (revWrite norm tmpB rord) (List.range tmpB.length) zeroM

theorem indexToPQ_nat_nonneg (i ord : ℕ) :
    0 ≤ (indexToPQ (i : ℤ) (ord : ℤ)).1 ∧ 0 ≤ (indexToPQ (i : ℤ) (ord : ℤ)).2 :=
  indexToPQiter_nonneg ((ord : ℤ)).toNat 0 (i : ℤ) (le_refl 0) (by omega)

/-- Index injectivity restated for natural-number loop counters. -/
theorem indexToPQ_nat_inj (ord i i' : ℕ) (hi : i < Tri ord) (hi' : i' < Tri ord)
    (h1 : (indexToPQ (i : ℤ) (ord : ℤ)).1.toNat = (indexToPQ (i' : ℤ) (ord : ℤ)).1.toNat)
    (h2 : (indexToPQ (i : ℤ) (ord : ℤ)).2.toNat = (indexToPQ (i' : ℤ) (ord : ℤ)).2.toNat) :
    i = i' := by
  obtain ⟨ha1, ha2⟩ := indexToPQ_nat_nonneg i ord
  obtain ⟨hb1, hb2⟩ := indexToPQ_nat_nonneg i' ord
  have hTi : (i : ℤ) < Tri ((ord : ℤ)).toNat := by
    rw [Int.toNat_natCast]; exact_mod_cast hi
  have hTi' : (i' : ℤ) < Tri ((ord : ℤ)).toNat := by
    rw [Int.toNat_natCast]; exact_mod_cast hi'
  have hii : (i : ℤ) = (i' : ℤ) := by
    apply indexToPQ_injective ((ord : ℤ)) (by omega) hTi (by omega) hTi'
    have c1 : (indexToPQ (i : ℤ) (ord : ℤ)).1 = (indexToPQ (i' : ℤ) (ord : ℤ)).1 := by omega
    have c2 : (indexToPQ (i : ℤ) (ord : ℤ)).2 = (indexToPQ (i' : ℤ) (ord : ℤ)).2 := by omega
    exact Prod.ext c1 c2
  exact_mod_cast hii

theorem fwdWriteA_eq_some (CDinv : Mat2) (norm : ℚ) (mu nu : List ℚ)
    (ord i : ℕ) (pv : (ℕ × ℕ) × ℚ)
    (h : fwdWriteA CDinv norm mu nu ord i = some pv) :
    pv.1 = ((indexToPQ (i : ℤ) (ord : ℤ)).1.toNat, (indexToPQ (i : ℤ) (ord : ℤ)).2.toNat) ∧
    1 < (indexToPQ (i : ℤ) (ord : ℤ)).1 + (indexToPQ (i : ℤ) (ord : ℤ)).2 ∧
    (indexToPQ (i : ℤ) (ord : ℤ)).1 + (indexToPQ (i : ℤ) (ord : ℤ)).2 < (ord : ℤ) := by
  rw [fwdWriteA] at h
  split_ifs at h with hc
  cases h
  exact ⟨rfl, hc.1, hc.2⟩

theorem fwdWriteB_eq_some (CDinv : Mat2) (norm : ℚ) (mu nu : List ℚ)
    (ord i : ℕ) (pv : (ℕ × ℕ) × ℚ)
    (h : fwdWriteB CDinv norm mu nu ord i = some pv) :
    pv.1 = ((indexToPQ (i : ℤ) (ord : ℤ)).1.toNat, (indexToPQ (i : ℤ) (ord : ℤ)).2.toNat) ∧
    1 < (indexToPQ (i : ℤ) (ord : ℤ)).1 + (indexToPQ (i : ℤ) (ord : ℤ)).2 ∧
    (indexToPQ (i : ℤ) (ord : ℤ)).1 + (indexToPQ (i : ℤ) (ord : ℤ)).2 < (ord : ℤ) := by
  rw [fwdWriteB] at h
  split_ifs at h with hc
  cases h
  exact ⟨rfl, hc.1, hc.2⟩

theorem revWrite_eq_some (norm : ℚ) (tmp : List ℚ) (ord j : ℕ)
    (pv : (ℕ × ℕ) × ℚ) (h : revWrite norm tmp ord j = some pv) :
    pv.1 = ((indexToPQ (j : ℤ) (ord : ℤ)).1.toNat, (indexToPQ (j : ℤ) (ord : ℤ)).2.toNat) := by
  rw [revWrite] at h
  cases h
  rfl

/-- **C7.**  The forward fit writes a coefficient only for basis terms of
total degree strictly between 1 and the forward order, as
`invMap·(mu[i], nu[i])` divided by `scale^(p+q)` (all other positions stay
at their zero initialization); the reverse fit writes a coefficient for
*every* basis term of the reverse index range — degree 0 and 1 included —
equal to the solved coefficient divided by `scale^(p+q)`. -/
theorem claim_C7_sipWrites (CDinv : Mat2) (norm : ℚ) (mu nu tmpA tmpB : List ℚ)
    (ord rord : ℕ) (hmu : mu.length = Tri ord)
    (htA : tmpA.length = Tri rord) (htB : tmpB.length = Tri rord) :
    (∀ p q : ℕ, ¬(1 < p + q ∧ p + q < ord) →
      sipA CDinv norm mu nu ord p q = 0 ∧ sipB CDinv norm mu nu ord p q = 0) ∧
    (∀ i : ℕ, 1 ≤ i → i < mu.length →
      1 < (indexToPQ (i : ℤ) (ord : ℤ)).1 + (indexToPQ (i : ℤ) (ord : ℤ)).2 →
      (indexToPQ (i : ℤ) (ord : ℤ)).1 + (indexToPQ (i : ℤ) (ord : ℤ)).2 < (ord : ℤ) →
      sipA CDinv norm mu nu ord (indexToPQ (i : ℤ) (ord : ℤ)).1.toNat
          (indexToPQ (i : ℤ) (ord : ℤ)).2.toNat =
        (CDinv.app (mu.getD i 0, nu.getD i 0)).1 /
          norm ^ ((indexToPQ (i : ℤ) (ord : ℤ)).1 + (indexToPQ (i : ℤ) (ord : ℤ)).2).toNat ∧
      sipB CDinv norm mu nu ord (indexToPQ (i : ℤ) (ord : ℤ)).1.toNat
          (indexToPQ (i : ℤ) (ord : ℤ)).2.toNat =
        (CDinv.app (mu.getD i 0, nu.getD i 0)).2 /
          norm ^ ((indexToPQ (i : ℤ) (ord : ℤ)).1 + (indexToPQ (i : ℤ) (ord : ℤ)).2).toNat) ∧
    (∀ j : ℕ, j < tmpA.length →
      sipAp norm tmpA rord (indexToPQ (j : ℤ) (rord : ℤ)).1.toNat
          (indexToPQ (j : ℤ) (rord : ℤ)).2.toNat =
        tmpA.getD j 0 /
          norm ^ ((indexToPQ (j : ℤ) (rord : ℤ)).1 + (indexToPQ (j : ℤ) (rord : ℤ)).2).toNat) ∧
    (∀ j : ℕ, j < tmpB.length →
      sipBp norm tmpB rord (indexToPQ (j : ℤ) (rord : ℤ)).1.toNat
          (indexToPQ (j : ℤ) (rord : ℤ)).2.toNat =
        tmpB.getD j 0 /
          norm ^ ((indexToPQ (j : ℤ) (rord : ℤ)).1 + (indexToPQ (j : ℤ) (rord : ℤ)).2).toNat) := by
  have hout : ∀ (p q i : ℕ), ¬(1 < p + q ∧ p + q < ord) →
      ∀ pv : (ℕ × ℕ) × ℚ,
      pv.1 = ((indexToPQ (i : ℤ) (ord : ℤ)).1.toNat, (indexToPQ (i : ℤ) (ord : ℤ)).2.toNat) →
      1 < (indexToPQ (i : ℤ) (ord : ℤ)).1 + (indexToPQ (i : ℤ) (ord : ℤ)).2 →
      (indexToPQ (i : ℤ) (ord : ℤ)).1 + (indexToPQ (i : ℤ) (ord : ℤ)).2 < (ord : ℤ) →
      pv.1 ≠ (p, q) := by
    intro p q i hnot pv hpos hgt hlt hc
    rw [hc] at hpos
    injection hpos with hp hq
    obtain ⟨hn1, hn2⟩ := indexToPQ_nat_nonneg i ord
    exact hnot ⟨by omega, by omega⟩
  have hinj : ∀ (o i i' : ℕ), i < Tri o → i' < Tri o → i' ≠ i →
      ∀ pv : (ℕ × ℕ) × ℚ,
      pv.1 = ((indexToPQ (i' : ℤ) (o : ℤ)).1.toNat, (indexToPQ (i' : ℤ) (o : ℤ)).2.toNat) →
      pv.1 ≠ ((indexToPQ (i : ℤ) (o : ℤ)).1.toNat, (indexToPQ (i : ℤ) (o : ℤ)).2.toNat) := by
    intro o i i' hi hi' hne pv hpos hc
    rw [hc] at hpos
    injection hpos with hp hq
    exact hne (indexToPQ_nat_inj o i' i hi' hi (by omega) (by omega))
  refine ⟨?_, ?_, ?_, ?_⟩
  · intro p q hnot
    constructor
    · apply foldWrites_no_write
      intro i hi pv hf
      obtain ⟨hpos, hgt, hlt⟩ := fwdWriteA_eq_some CDinv norm mu nu ord i pv hf
      intro hc
      exact hout p q i hnot pv hpos hgt hlt hc
    · apply foldWrites_no_write
      intro i hi pv hf
      obtain ⟨hpos, hgt, hlt⟩ := fwdWriteB_eq_some CDinv norm mu nu ord i pv hf
      intro hc
      exact hout p q i hnot pv hpos hgt hlt hc
  · intro i h1i hilen hgt hlt
    have hiT : i < Tri ord := by omega
    constructor
    · apply foldWrites_unique_write _ _ _ _ _ i
      · exact List.mem_range'_1.mpr ⟨h1i, by omega⟩
      · exact List.nodup_range' _ _
      · rw [fwdWriteA, if_pos ⟨hgt, hlt⟩]
      · intro i' hi' hne pv hf
        obtain ⟨hpos, -, -⟩ := fwdWriteA_eq_some CDinv norm mu nu ord i' pv hf
        have hi'T : i' < Tri ord := by
          have := (List.mem_range'_1.mp hi').2
          omega
        exact hinj ord i i' hiT hi'T hne pv hpos
    · apply foldWrites_unique_write _ _ _ _ _ i
      · exact List.mem_range'_1.mpr ⟨h1i, by omega⟩
      · exact List.nodup_range' _ _
      · rw [fwdWriteB, if_pos ⟨hgt, hlt⟩]
      · intro i' hi' hne pv hf
        obtain ⟨hpos, -, -⟩ := fwdWriteB_eq_some CDinv norm mu nu ord i' pv hf
        have hi'T : i' < Tri ord := by
          have := (List.mem_range'_1.mp hi').2
          omega
        exact hinj ord i i' hiT hi'T hne pv hpos
  · intro j hj
    apply foldWrites_unique_write _ _ _ _ _ j
    · exact List.mem_range.mpr hj
    · exact List.nodup_range _
    · rfl
    · intro j' hj' hne pv hf
      have hpos := revWrite_eq_some norm tmpA rord j' pv hf
      exact hinj rord j j' (by omega) (by rw [← htA]; exact List.mem_range.mp hj') hne pv hpos
  · intro j hj
    apply foldWrites_unique_write _ _ _ _ _ j
    · exact List.mem_range.mpr hj
    · exact List.nodup_range _
    · rfl
    · intro j' hj' hne pv hf
      have hpos := revWrite_eq_some norm tmpB rord j' pv hf
      exact hinj rord j j' (by omega) (by rw [← htB]; exact List.mem_range.mp hj') hne pv hpos

/-- Witness for C7: reverse order 2, solved coefficients `[1, 2, 3]`, scale 1;
the constant term (index 0, exponents `(0,0)`) is written as `1 / 1^0 = 1`. -/
theorem claim_C7_sipWrites_witness : sipAp 1 [1, 2, 3] 2 0 0 = 1 := by
  have e : indexToPQ ((0 : ℕ) : ℤ) ((2 : ℕ) : ℤ) = (0, 0) := by decide
  have h := (claim_C7_sipWrites Mat2.idm 1 [0, 0, 0] [0, 0, 0] [1, 2, 3] [4, 5, 6] 2 2
    (by decide) (by decide) (by decide)).2.2.1 0 (by decide)
  rw [e] at h
  simpa using h

/-- **C8.**  Off-triangle entries of all four coefficient matrices are zero at
every point of the fit: the matrices start from the zero initialization of
lines 121-124, every forward write has total degree `< ord` (indeed between
2 and `ord - 1`, lines 269-277), every reverse write has total degree
`< rord` (lines 342-348), and hence every prefix of either write loop — in
particular the completed `sipA`, `sipB`, `sipAp`, `sipBp` — leaves every
position with `p + q ≥ order` at zero. -/
theorem claim_C8_offTriangleZero (CDinv : Mat2) (norm : ℚ)
    (mu nu tmpA tmpB : List ℚ) (ord rord : ℕ)
    (htA : tmpA.length = Tri rord) (htB : tmpB.length = Tri rord) :
    (∀ p q : ℕ, ord ≤ p + q →
      sipA CDinv norm mu nu ord p q = 0 ∧ sipB CDinv norm mu nu ord p q = 0) ∧
    (∀ p q : ℕ, rord ≤ p + q →
      sipAp norm tmpA rord p q = 0 ∧ sipBp norm tmpB rord p q = 0) ∧
    (∀ n p q : ℕ, ord ≤ p + q →
      foldWrites (fwdWriteA CDinv norm mu nu ord)
        ((List.range' 1 (mu.length - 1)).take n) zeroM p q = 0 ∧
      foldWrites (fwdWriteB CDinv norm mu nu ord)
        ((List.range' 1 (mu.length - 1)).take n) zeroM p q = 0) ∧
    (∀ n p q : ℕ, rord ≤ p + q →
      foldWrites (revWrite norm tmpA rord)
        ((List.range tmpA.length).take n) zeroM p q = 0 ∧
      foldWrites (revWrite norm tmpB rord)
        ((List.range tmpB.length).take n) zeroM p q = 0) := by
  have hfwd : ∀ (i p q : ℕ), ord ≤ p + q → ∀ pv : (ℕ × ℕ) × ℚ,
      pv.1 = ((indexToPQ (i : ℤ) (ord : ℤ)).1.toNat, (indexToPQ (i : ℤ) (ord : ℤ)).2.toNat) →
      (indexToPQ (i : ℤ) (ord : ℤ)).1 + (indexToPQ (i : ℤ) (ord : ℤ)).2 < (ord : ℤ) →
      pv.1 ≠ (p, q) := by
    intro i p q hout pv hpos hlt hc
    rw [hc] at hpos
    injection hpos with hp hq
    obtain ⟨hn1, hn2⟩ := indexToPQ_nat_nonneg i ord
    omega
  have hrev : ∀ (tmp : List ℚ) (hlen : tmp.length = Tri rord) (j p q : ℕ),
      j ∈ List.range tmp.length → rord ≤ p + q → ∀ pv : (ℕ × ℕ) × ℚ,
      revWrite norm tmp rord j = some pv → pv.1 ≠ (p, q) := by
    intro tmp hlen j p q hj hout pv hf hc
    have hpos := revWrite_eq_some norm tmp rord j pv hf
    rw [hc] at hpos
    injection hpos with hp hq
    have hjT : (j : ℤ) < Tri ((rord : ℤ)).toNat := by
      rw [Int.toNat_natCast]
      have := List.mem_range.mp hj
      omega
    obtain ⟨hn1, hn2, hsum⟩ := indexToPQ_valid (j : ℤ) (rord : ℤ) (by omega) hjT
    omega
  have hfa : ∀ (n p q : ℕ), ord ≤ p + q →
      foldWrites (fwdWriteA CDinv norm mu nu ord)
        ((List.range' 1 (mu.length - 1)).take n) zeroM p q = 0 := by
    intro n p q hout
    apply foldWrites_no_write
    intro i hi pv hf
    obtain ⟨hpos, -, hlt⟩ := fwdWriteA_eq_some CDinv norm mu nu ord i pv hf
    exact hfwd i p q hout pv hpos hlt
  have hfb : ∀ (n p q : ℕ), ord ≤ p + q →
      foldWrites (fwdWriteB CDinv norm mu nu ord)
        ((List.range' 1 (mu.length - 1)).take n) zeroM p q = 0 := by
    intro n p q hout
    apply foldWrites_no_write
    intro i hi pv hf
    obtain ⟨hpos, -, hlt⟩ := fwdWriteB_eq_some CDinv norm mu nu ord i pv hf
    exact hfwd i p q hout pv hpos hlt
  have hra : ∀ (n p q : ℕ), rord ≤ p + q →
      foldWrites (revWrite norm tmpA rord)
        ((List.range tmpA.length).take n) zeroM p q = 0 := by
    intro n p q hout
    apply foldWrites_no_write
    intro j hj pv hf
    exact hrev tmpA htA j p q (List.mem_of_mem_take hj) hout pv hf
  have hrb : ∀ (n p q : ℕ), rord ≤ p + q →
      foldWrites (revWrite norm tmpB rord)
        ((List.range tmpB.length).take n) zeroM p q = 0 := by
    intro n p q hout
    apply foldWrites_no_write
    intro j hj pv hf
    exact hrev tmpB htB j p q (List.mem_of_mem_take hj) hout pv hf
  have htake : ∀ (l : List ℕ), l.take l.length = l := fun l => List.take_length l
  refine ⟨?_, ?_, fun n p q h => ⟨hfa n p q h, hfb n p q h⟩,
    fun n p q h => ⟨hra n p q h, hrb n p q h⟩⟩
  · intro p q hout
    constructor
    · have h := hfa (mu.length - 1) p q hout
      rwa [List.take_of_length_le (by simp)] at h
    · have h := hfb (mu.length - 1) p q hout
      rwa [List.take_of_length_le (by simp)] at h
  · intro p q hout
    constructor
    · have h := hra tmpA.length p q hout
      rwa [List.take_of_length_le (by simp)] at h
    · have h := hrb tmpB.length p q hout
      rwa [List.take_of_length_le (by simp)] at h

/-- Witness for C8: reverse order 2 with solved vector `[1, 2, 3]` leaves the
off-triangle position `(1, 1)` (total degree 2 ≥ 2) at zero. -/
theorem claim_C8_offTriangleZero_witness :
    sipAp 1 [1, 2, 3] 2 1 1 = 0 ∧ sipA Mat2.idm 1 [0, 0, 0] [0, 0, 0] 2 1 1 = 0 := by
  have h := claim_C8_offTriangleZero Mat2.idm 1 [0, 0, 0] [0, 0, 0] [1, 2, 3] [4, 5, 6] 2 2
    (by decide) (by decide)
  exact ⟨(h.2.1 1 1 (by decide)).1, (h.1 1 1 (by decide)).1⟩

/-! ### Validity-region derivation (lines 156-169)

The box type and its `include`/`grow`/`getWidth` operations live in the
external `afw::geom` collaborator, not in this repository's source.
Modelled from the spec: an axis-aligned integer rectangle; `include` expands
it to cover a point (an empty box becomes the single-point box); `grow`
pads every side; width and height count pixels inclusively. -/

/-- A non-empty axis-aligned integer box (`afwGeom::Box2I`); the empty box is
represented by `Option.none` below. -/
structure BoxI where
  minX : ℤ
  maxX : ℤ
  minY : ℤ
  maxY : ℤ
  deriving DecidableEq

def BoxI.width (b : BoxI) : ℤ := b.maxX - b.minX + 1

def BoxI.height (b : BoxI) : ℤ := b.maxY - b.minY + 1

def BoxI.contains (b : BoxI) (pt : ℤ × ℤ) : Prop :=
  b.minX ≤ pt.1 ∧ pt.1 ≤ b.maxX ∧ b.minY ≤ pt.2 ∧ pt.2 ≤ b.maxY

/-- `bbox.include(point)`: expand (a possibly empty) box to cover a point. -/
def includePoint : Option BoxI → ℤ × ℤ → Option BoxI
  | none, pt => some ⟨pt.1, pt.1, pt.2, pt.2⟩
  | some b, pt =>
    some ⟨min b.minX pt.1, max b.maxX pt.1, min b.minY pt.2, max b.maxY pt.2⟩

/-- The loop of lines 157-164: fold `include` over all observed positions,
starting from the (empty) supplied box. -/
def pointsBBox (pts : List (ℤ × ℤ)) : Option BoxI :=
  pts.foldl includePoint none

/-- `bbox.grow(extent)`: pad each side. -/
def BoxI.grow (b : BoxI) (ex ey : ℤ) : BoxI :=
  ⟨b.minX - ex, b.maxX + ex, b.minY - ey, b.maxY + ey⟩

/-- `float const borderFrac = 1/::sqrt(_matches.size())` (line 165), in exact
real arithmetic. -/
noncomputable def borderFrac (n : ℕ) : ℝ := 1 / Real.sqrt n

/-- One component of `afwGeom::Extent2I border(borderFrac*width, ...)`
(line 166): the double product is converted to int; both factors are
non-negative here, so C++ truncation-toward-zero is the floor. -/
noncomputable def deriveBorder (n : ℕ) (len : ℤ) : ℤ :=
  Int.floor (borderFrac n * (len : ℝ))

/-- Lines 156-169: when no validity region is supplied, derive it as the
bounding box of the observed positions grown by the fractional border. -/
noncomputable def deriveBbox (pts : List (ℤ × ℤ)) : Option BoxI :=
  match pointsBBox pts with
  | none => none
  | some b =>
    some (b.grow (deriveBorder pts.length b.width) (deriveBorder pts.length b.height))

theorem foldl_include_extends (pts : List (ℤ × ℤ)) (acc : Option BoxI)
    (b : BoxI) (hfold : pts.foldl includePoint acc = some b) :
    ∀ a : BoxI, acc = some a →
      b.minX ≤ a.minX ∧ a.maxX ≤ b.maxX ∧ b.minY ≤ a.minY ∧ a.maxY ≤ b.maxY := by
  induction pts generalizing acc with
  | nil =>
    intro a ha
    rw [ha] at hfold
    cases hfold
    exact ⟨le_refl _, le_refl _, le_refl _, le_refl _⟩
  | cons pt rest ih =>
    intro a ha
    subst ha
    have hstep : includePoint (some a) pt =
        some ⟨min a.minX pt.1, max a.maxX pt.1, min a.minY pt.2, max a.maxY pt.2⟩ := rfl
    rw [List.foldl_cons, hstep] at hfold
    obtain ⟨h1, h2, h3, h4⟩ := ih _ hfold _ rfl
    simp only at h1 h2 h3 h4
    refine ⟨?_, ?_, ?_, ?_⟩ <;> omega

theorem foldl_include_contains (pts : List (ℤ × ℤ)) (acc : Option BoxI)
    (b : BoxI) (hfold : pts.foldl includePoint acc = some b) :
    ∀ pt ∈ pts, b.contains pt := by
  induction pts generalizing acc with
  | nil => intro pt hpt; cases hpt
  | cons pt0 rest ih =>
    intro pt hpt
    rcases List.mem_cons.mp hpt with rfl | hmem
    · have hm : ∃ m : BoxI, includePoint acc pt = some m ∧ m.contains pt := by
        rcases acc with - | a
        · exact ⟨⟨pt.1, pt.1, pt.2, pt.2⟩, rfl,
            le_refl _, le_refl _, le_refl _, le_refl _⟩
        · refine ⟨⟨min a.minX pt.1, max a.maxX pt.1, min a.minY pt.2, max a.maxY pt.2⟩,
            rfl, ?_, ?_, ?_, ?_⟩ <;> simp [BoxI.contains]
      obtain ⟨m, hmeq, hc1, hc2, hc3, hc4⟩ := hm
      rw [List.foldl_cons, hmeq] at hfold
      obtain ⟨h1, h2, h3, h4⟩ := foldl_include_extends rest _ b hfold m rfl
      exact ⟨by omega, by omega, by omega, by omega⟩
    · rw [List.foldl_cons] at hfold
      exact ih _ hfold pt hmem

theorem foldl_include_least (pts : List (ℤ × ℤ)) (acc : Option BoxI)
    (b : BoxI) (hfold : pts.foldl includePoint acc = some b)
    (c : BoxI) (hc : ∀ pt ∈ pts, c.contains pt)
    (hacc : ∀ a : BoxI, acc = some a →
      c.minX ≤ a.minX ∧ a.maxX ≤ c.maxX ∧ c.minY ≤ a.minY ∧ a.maxY ≤ c.maxY) :
    c.minX ≤ b.minX ∧ b.maxX ≤ c.maxX ∧ c.minY ≤ b.minY ∧ b.maxY ≤ c.maxY := by
  induction pts generalizing acc with
  | nil =>
    cases acc with
    | none => cases hfold
    | some a =>
      cases hfold
      exact hacc _ rfl
  | cons pt rest ih =>
    rw [List.foldl_cons] at hfold
    have hcpt := hc pt (List.mem_cons_self pt rest)
    obtain ⟨k1, k2, k3, k4⟩ := hcpt
    apply ih _ hfold (fun p hp => hc p (List.mem_cons_of_mem pt hp))
    intro a ha
    cases acc with
    | none =>
      cases ha
      exact ⟨k1, k2, k3, k4⟩
    | some a0 =>
      cases ha
      obtain ⟨m1, m2, m3, m4⟩ := hacc a0 rfl
      simp only
      refine ⟨?_, ?_, ?_, ?_⟩ <;> omega

/-- **C9.**  When no validity region is supplied and the match list is
non-empty, the derived region is the bounding box of the observed positions
(it contains every position and is the least box doing so), grown on each
side by the fractional border `1/sqrt(number of matches)` times the box's
width (respectively height), converted to integer pixels. -/
theorem claim_C9_validityRegion (pts : List (ℤ × ℤ)) (b : BoxI)
    (hbb : pointsBBox pts = some b) :
    (∀ pt ∈ pts, b.contains pt) ∧
    (∀ c : BoxI, (∀ pt ∈ pts, c.contains pt) →
      c.minX ≤ b.minX ∧ b.maxX ≤ c.maxX ∧ c.minY ≤ b.minY ∧ b.maxY ≤ c.maxY) ∧
    deriveBbox pts = some (b.grow
      (Int.floor (1 / Real.sqrt pts.length * (b.width : ℝ)))
      (Int.floor (1 / Real.sqrt pts.length * (b.height : ℝ)))) := by
  refine ⟨foldl_include_contains pts none b hbb, ?_, ?_⟩
  · intro c hc
    exact foldl_include_least pts none b hbb c hc (fun a ha => by cases ha)
  · rw [deriveBbox, hbb]
    rfl

/-- Witness for C9 on four concrete points: the exact bounding box is
`[0,9] × [0,9]`, the border is `floor(10/sqrt 4) = 5` on each side, giving
`[-5,14] × [-5,14]`. -/
theorem claim_C9_validityRegion_witness :
    pointsBBox [(0, 0), (9, 9), (1, 2), (3, 4)] = some ⟨0, 9, 0, 9⟩ ∧
      deriveBbox [(0, 0), (9, 9), (1, 2), (3, 4)] = some ⟨-5, 14, -5, 14⟩ := by
  have hbb : pointsBBox [(0, 0), (9, 9), (1, 2), (3, 4)] = some ⟨0, 9, 0, 9⟩ := by
    decide
  have h := (claim_C9_validityRegion [(0, 0), (9, 9), (1, 2), (3, 4)] ⟨0, 9, 0, 9⟩ hbb).2.2
  refine ⟨hbb, ?_⟩
  rw [h]
  have hs : Real.sqrt 4 = 2 := by
    rw [show (4 : ℝ) = 2 ^ 2 by norm_num, Real.sqrt_sq (by norm_num : (0 : ℝ) ≤ 2)]
  have hw : ((⟨0, 9, 0, 9⟩ : BoxI).width : ℝ) = 10 := by
    norm_num [BoxI.width]
  have hh : ((⟨0, 9, 0, 9⟩ : BoxI).height : ℝ) = 10 := by
    norm_num [BoxI.height]
  have hlen : ((List.length [((0 : ℤ), (0 : ℤ)), (9, 9), (1, 2), (3, 4)] : ℕ) : ℝ) = 4 := by
    norm_num
  rw [hw, hh, hlen, hs]
  have hfive : (1 / (2 : ℝ)) * 10 = ((5 : ℤ) : ℝ) := by norm_num
  rw [hfive, Int.floor_intCast]
  rfl

end CreateWcsWithSip
